import Mathlib

/-!
Verification development for the quantum-holographic word-transition memory.
The main component (word graph, decay, persistence chunking, generation walk)
is embedded from the React component source; the auxiliary Markov model is
embedded from DocumentProcessor.  JavaScript numbers are modelled as real
numbers, JavaScript `Map`/`Set` as insertion-ordered association lists, and
`Math.random()` as an explicit stream of values consumed at an index.
-/

noncomputable section

namespace QHNN

/-- Complex amplitude as stored by the mathjs `Complex` values in the source:
a pair of real components. -/
structure Cx where
  re : ℝ
  im : ℝ

/-- Magnitude of a complex amplitude, `Complex.abs()` in the source. -/
def Cx.abs (z : Cx) : ℝ := Real.sqrt (z.re ^ 2 + z.im ^ 2)

/-- Scaling by a real factor, `Complex.mul(r)` with a real scalar. -/
def Cx.scale (r : ℝ) (z : Cx) : Cx := ⟨r * z.re, r * z.im⟩

/-- Negation, `Complex.neg()`. -/
def Cx.neg (z : Cx) : Cx := ⟨-z.re, -z.im⟩

/-- Complex multiplication, `Complex.mul(Complex)`. -/
def Cx.mul (z w : Cx) : Cx := ⟨z.re * w.re - z.im * w.im, z.re * w.im + z.im * w.re⟩

/-- Complex conjugation, `Complex.conjugate()`. -/
def Cx.conj (z : Cx) : Cx := ⟨z.re, -z.im⟩

/-- The `QuantumState` record of the source: an amplitude and a phase. -/
structure QuantumState where
  amplitude : Cx
  phase : ℝ

/-- The `HolographicPattern` record of the source. -/
structure HolographicPattern where
  intensity : List ℝ
  phase : List ℝ

/-- The `color` record of a word node. -/
structure NodeColor where
  hue : ℝ
  saturation : ℝ
  brightness : ℝ
  alpha : ℝ

/-- A THREE.Vector3 position, treated as an opaque triple. -/
structure Vec3 where
  x : ℝ
  y : ℝ
  z : ℝ

/-- The `WordNode` record of the source.  `next` is the insertion-ordered
transition map (successor word to count), `documents` and `entangledNodes`
are insertion-ordered sets. -/
structure WordNode where
  word : String
  count : ℕ
  next : List (String × ℕ)
  color : NodeColor
  documents : List String
  lastAccessed : ℝ
  strength : ℝ
  quantumState : QuantumState
  holographicPattern : HolographicPattern
  entangledNodes : List String
  position : Vec3

/-- The node map of a `Memory`, an insertion-ordered association list as a
JavaScript `Map` iterates. -/
abbrev Nodes := List (String × WordNode)

/-- The `Memory` record of the source. -/
structure Memory where
  nodes : Nodes
  totalDocuments : ℕ
  lastConsolidation : ℝ
  quantumCoherence : ℝ
  documentContents : List (String × String)

/-- Constant `CHUNK_SIZE = 1024 * 1024` from the source. -/
def CHUNK_SIZE : ℕ := 1024 * 1024

/-- Constant `MAX_CHUNKS = 10` from the source. -/
def MAX_CHUNKS : ℕ := 10

/-- Constant `CONSOLIDATION_INTERVAL = 1000 * 60 * 60` (one hour of
millisecond timestamps) from the source. -/
def CONSOLIDATION_INTERVAL : ℝ := 1000 * 60 * 60

/-- Constant `MEMORY_DECAY_RATE = 0.1` from the source. -/
def MEMORY_DECAY_RATE : ℝ := 0.1

/-- Constant `MAX_MEMORY_STRENGTH = 5` from the source. -/
def MAX_MEMORY_STRENGTH : ℝ := 5

/-- Constant `QUANTUM_COHERENCE_DECAY = 0.05` from the source. -/
def QUANTUM_COHERENCE_DECAY : ℝ := 0.05

/-- Constant `MAX_DOCUMENT_SIZE = 1000000` from the source. -/
def MAX_DOCUMENT_SIZE : ℕ := 1000000

/-- Lookup in an association list, `Map.get` of the source. -/
def lookupNode : Nodes → String → Option WordNode
  | [], _ => none
  | (k, n) :: t, w => if k = w then some n else lookupNode t w

/-- In-place mutation of the node stored under an existing key (a no-op when
the key is absent), used to render JavaScript object mutation. -/
def mapNode : Nodes → String → (WordNode → WordNode) → Nodes
  | [], _, _ => []
  | (k, n) :: t, w, f => (if k = w then (k, f n) else (k, n)) :: mapNode t w f

/-- `Map.set` of the source: replace in place when the key is present,
append at the end otherwise. -/
def setNode (m : Nodes) (w : String) (n : WordNode) : Nodes :=
  if (lookupNode m w).isSome then mapNode m w fun _ => n
  else m ++ [(w, n)]

/-- `Set.add` of the source: append unless already present. -/
def addToSet (l : List String) (x : String) : List String :=
  if x ∈ l then l else l ++ [x]

/-- Generic association-list update used for `documentContents` and for the
inner transition map. -/
def setAssoc {α : Type} (l : List (String × α)) (k : String) (v : α) :
    List (String × α) :=
  if (l.lookup k).isSome then l.map (fun p => if p.1 = k then (k, v) else p)
  else l ++ [(k, v)]

/-- Word characters of the tokenizing regular expression: letters, digits
and underscore. -/
def isWordChar (c : Char) : Bool := c.isAlphanum || c = '_'

/-- Grouping of a character list into maximal runs of word characters, the
effect of matching the word regular expression globally. -/
def tokenAux : List Char → List Char → List (List Char)
  | [], acc => if acc = [] then [] else [acc.reverse]
  | c :: cs, acc =>
    if isWordChar c then tokenAux cs (c :: acc)
    else if acc = [] then tokenAux cs []
    else acc.reverse :: tokenAux cs []

/-- The tokenizer of the source: lowercase the text, then collect the
maximal runs of word characters. -/
def tokenize (s : String) : List String :=
  (tokenAux (s.data.map Char.toLower) []).map fun l => String.mk l

/-- `text.slice(0, n)` of the source. -/
def jsSlice (s : String) (n : ℕ) : String := String.mk (s.data.take n)

/-- Consecutive pairs of a token list, the pairs visited by the ingestion
loop index. -/
def consecutivePairs {α : Type} : List α → List (α × α)
  | [] => []
  | [_] => []
  | a :: b :: t => (a, b) :: consecutivePairs (b :: t)

/-- Exponential decay applied to one node by `consolidateMemory`: the
strength is multiplied by `exp(-MEMORY_DECAY_RATE * timeDiff)` where
`timeDiff = (now - lastAccessed) / CONSOLIDATION_INTERVAL`. -/
def decayNode (now : ℝ) (n : WordNode) : WordNode :=
  { n with strength :=
      n.strength *
        Real.exp (-MEMORY_DECAY_RATE * ((now - n.lastAccessed) / CONSOLIDATION_INTERVAL)) }

/-- The node sweep of `consolidateMemory`: decay every node and delete the
ones whose decayed strength dropped below `0.1`. -/
def consolidateNodes (now : ℝ) : Nodes → Nodes
  | [] => []
  | p :: t =>
    if (decayNode now p.2).strength < 0.1 then consolidateNodes now t
    else (p.1, decayNode now p.2) :: consolidateNodes now t

/-- `consolidateMemory` from the source: sweep the nodes and record the
consolidation time. -/
def consolidateMemory (now : ℝ) (mem : Memory) : Memory :=
  { mem with nodes := consolidateNodes now mem.nodes, lastConsolidation := now }

/-- A concrete word node used by witnesses and counterexamples. -/
def baseNode : WordNode :=
  { word := "w", count := 1, next := [], color := ⟨0, 50, 50, 0.5⟩, documents := [],
    lastAccessed := 0, strength := 1, quantumState := ⟨⟨1, 0⟩, 0⟩,
    holographicPattern := ⟨[], []⟩, entangledNodes := [], position := ⟨0, 0, 0⟩ }

theorem lookupNode_eq_none (m : Nodes) (w : String) (h : w ∉ m.map Prod.fst) :
    lookupNode m w = none := by
  induction m with
  | nil => rfl
  | cons p t ih =>
    obtain ⟨k, n⟩ := p
    simp only [List.map_cons, List.mem_cons] at h
    push_neg at h
    rw [lookupNode, if_neg fun hk => h.1 hk.symm]
    exact ih h.2

theorem consolidate_keys {now : ℝ} {m : Nodes} {w : String}
    (h : w ∈ (consolidateNodes now m).map Prod.fst) : w ∈ m.map Prod.fst := by
  induction m with
  | nil => exact absurd h (List.not_mem_nil w)
  | cons p t ih =>
    by_cases hc : (decayNode now p.2).strength < 0.1
    · rw [consolidateNodes, if_pos hc] at h
      exact List.mem_cons_of_mem _ (ih h)
    · rw [consolidateNodes, if_neg hc] at h
      simp only [List.map_cons, List.mem_cons] at h ⊢
      rcases h with h | h
      · exact Or.inl h
      · exact Or.inr (ih h)

theorem lookup_consolidateNodes (now : ℝ) (w : String) :
    ∀ m : Nodes, (m.map Prod.fst).Nodup →
      lookupNode (consolidateNodes now m) w =
        (lookupNode m w).bind fun n =>
          if (decayNode now n).strength < 0.1 then none else some (decayNode now n)
  | [], _ => rfl
  | (k, n) :: t, hnd => by
    simp only [List.map_cons, List.nodup_cons] at hnd
    by_cases hc : (decayNode now n).strength < 0.1
    · rw [consolidateNodes, if_pos hc]
      by_cases hkw : k = w
      · subst hkw
        rw [lookupNode, if_pos rfl,
          lookupNode_eq_none _ _ fun hmem => hnd.1 (consolidate_keys hmem)]
        simp [hc]
      · rw [lookupNode, if_neg hkw]
        exact lookup_consolidateNodes now w t hnd.2
    · rw [consolidateNodes, if_neg hc]
      by_cases hkw : k = w
      · subst hkw
        rw [lookupNode, if_pos rfl, lookupNode, if_pos rfl]
        simp [hc]
      · rw [lookupNode, if_neg hkw, lookupNode, if_neg hkw]
        exact lookup_consolidateNodes now w t hnd.2

/-- C2: `consolidate(now)` multiplies every strength by
`exp(-0.1 * (now - lastAccessed) / CONSOLIDATION_INTERVAL)` with the
interval equal to one hour of millisecond time units, keeps exactly the
nodes whose decayed strength is at least `0.1`, and removes the others. -/
theorem consolidate_decay_prune_spec (now : ℝ) (m : Nodes)
    (hnd : (m.map Prod.fst).Nodup) (w : String) :
    (lookupNode (consolidateNodes now m) w =
      (lookupNode m w).bind fun n =>
        if (decayNode now n).strength < 0.1 then none else some (decayNode now n)) ∧
    ∀ n : WordNode, (decayNode now n).strength =
      n.strength * Real.exp (-(0.1) * ((now - n.lastAccessed) / (1000 * 60 * 60))) :=
  ⟨lookup_consolidateNodes now w m hnd, fun n => by
    simp [decayNode, MEMORY_DECAY_RATE, CONSOLIDATION_INTERVAL]⟩

/-- Witness for C2 at a concrete one-node graph. -/
theorem consolidate_decay_prune_spec_witness :
    (([("w", baseNode)] : Nodes).map Prod.fst).Nodup ∧
      lookupNode (consolidateNodes 0 [("w", baseNode)]) "w" =
        (lookupNode [("w", baseNode)] "w").bind fun n =>
          if (decayNode 0 n).strength < 0.1 then none else some (decayNode 0 n) :=
  ⟨by simp, (consolidate_decay_prune_spec 0 [("w", baseNode)] (by simp) "w").1⟩

theorem exp_decay_lb : (0.9 : ℝ) ≤ Real.exp (-(0.1)) := by
  have h := Real.add_one_le_exp (-(0.1))
  linarith

theorem decay_hour (n : WordNode) (h : n.lastAccessed = 0) :
    decayNode 3600000 n = { n with strength := n.strength * Real.exp (-(0.1)) } := by
  simp only [decayNode, h, MEMORY_DECAY_RATE, CONSOLIDATION_INTERVAL]
  norm_num

theorem consolidate_singleton_run (n : WordNode) (hla : n.lastAccessed = 0)
    (hs : (0.81 : ℝ) ≤ n.strength) :
    consolidateNodes 3600000 [("w", n)] =
      [("w", { n with strength := n.strength * Real.exp (-(0.1)) })] := by
  have hd := decay_hour n hla
  have hf9 := exp_decay_lb
  rw [consolidateNodes, hd]
  rw [if_neg (by simp only []; push_neg; nlinarith)]
  rfl

/-- The memory used to refute idempotence of consolidation: one node last
accessed at time `0`, consolidated at time `3600000` (one hour later). -/
def cexMemC1 : Memory :=
  { nodes := [("w", baseNode)], totalDocuments := 0, lastConsolidation := 0,
    quantumCoherence := 1, documentContents := [] }

/-- C1 counterexample: consolidation is not idempotent.  Applying
`consolidate(t)` twice with the same `t` decays each surviving strength a
second time, because `lastAccessed` is not updated by consolidation. -/
theorem consolidate_not_idempotent_cex :
    consolidateMemory 3600000 (consolidateMemory 3600000 cexMemC1) ≠
      consolidateMemory 3600000 cexMemC1 := by
  have hf9 := exp_decay_lb
  have h1 : consolidateMemory 3600000 cexMemC1 =
      { cexMemC1 with
        nodes := [("w", { baseNode with strength := 1 * Real.exp (-(0.1)) })],
        lastConsolidation := 3600000 } := by
    have := consolidate_singleton_run baseNode (by rfl) (by norm_num [baseNode])
    simp only [consolidateMemory, cexMemC1]
    rw [this]
    rfl
  intro h
  rw [h1] at h
  have h2 := consolidate_singleton_run
    { baseNode with strength := 1 * Real.exp (-(0.1)) } (by rfl)
    (by simp only [baseNode]; nlinarith)
  simp only [consolidateMemory] at h
  rw [h2] at h
  have hnodes := congrArg Memory.nodes h
  simp only [List.cons.injEq, Prod.mk.injEq] at hnodes
  have hstr := congrArg WordNode.strength hnodes.1.2
  simp only [] at hstr
  have hfpos : (0 : ℝ) < Real.exp (-(0.1)) := Real.exp_pos _
  have hfeq : Real.exp (-(0.1)) = 1 := by
    have : (1 * Real.exp (-(0.1))) * Real.exp (-(0.1)) = 1 * Real.exp (-(0.1)) := hstr
    nlinarith
  rw [Real.exp_eq_one_iff] at hfeq
  norm_num at hfeq

theorem decayNode_fresh (now : ℝ) (n : WordNode) (h : n.lastAccessed = now) :
    decayNode now n = n := by
  have hz : now - n.lastAccessed = 0 := by rw [h]; ring
  simp only [decayNode, hz, zero_div, mul_zero, Real.exp_zero, mul_one]

theorem consolidateNodes_fresh (now : ℝ) :
    ∀ l : Nodes, (∀ p ∈ l, (p.2 : WordNode).lastAccessed = now) →
      consolidateNodes now (consolidateNodes now l) = consolidateNodes now l
  | [], _ => rfl
  | (k, n) :: t, h => by
    have hd : decayNode now n = n := decayNode_fresh now n (h (k, n) (by simp))
    have ht : ∀ p ∈ t, (p.2 : WordNode).lastAccessed = now := fun p hp =>
      h p (List.mem_cons_of_mem _ hp)
    by_cases hc : (decayNode now n).strength < 0.1
    · rw [consolidateNodes, if_pos hc]
      exact consolidateNodes_fresh now t ht
    · rw [consolidateNodes, if_neg hc, hd, consolidateNodes]
      rw [hd] at hc
      rw [if_neg (by rw [hd]; exact hc)]
      rw [hd, consolidateNodes_fresh now t ht]

/-- C1 amended: consolidation is idempotent on graphs in which every node
was last accessed exactly at the consolidation time (so the decay factor is
one); in general a second call decays every surviving strength again. -/
theorem consolidate_idempotent_of_fresh (now : ℝ) (mem : Memory)
    (h : ∀ p ∈ mem.nodes, (p.2 : WordNode).lastAccessed = now) :
    consolidateMemory now (consolidateMemory now mem) = consolidateMemory now mem := by
  have hn := consolidateNodes_fresh now mem.nodes h
  simp [consolidateMemory, hn]

/-- A concrete fresh memory for the C1 amended witness. -/
def freshMem : Memory :=
  { nodes := [("w", { baseNode with lastAccessed := 7 })], totalDocuments := 0,
    lastConsolidation := 0, quantumCoherence := 1, documentContents := [] }

/-- Witness for the amended C1 at a concrete one-node graph. -/
theorem consolidate_idempotent_of_fresh_witness :
    (∀ p ∈ freshMem.nodes, (p.2 : WordNode).lastAccessed = 7) ∧
      consolidateMemory 7 (consolidateMemory 7 freshMem) = consolidateMemory 7 freshMem :=
  ⟨by intro p hp; simp only [freshMem, List.mem_singleton] at hp; subst hp; rfl,
    consolidate_idempotent_of_fresh 7 freshMem (by
      intro p hp; simp only [freshMem, List.mem_singleton] at hp; subst hp; rfl)⟩

/-- The key-value persistence substrate, localStorage in the source. -/
def Store := String → Option String

/-- A store with no keys. -/
def emptyStore : Store := fun _ => none

/-- `localStorage.setItem`. -/
def storeSet (st : Store) (key val : String) : Store :=
  fun k => if k = key then some val else st k

/-- `localStorage.removeItem`. -/
def storeRemove (st : Store) (key : String) : Store :=
  fun k => if k = key then none else st k

/-- The storage key of chunk `i`: the memory key base of the source followed
by the chunk index. -/
def chunkKey (i : ℕ) : String := "quantum_holographic_network_" ++ toString i

/-- The chunking loop of `saveMemory`: consecutive `CHUNK_SIZE` slices of
the serialized string.  The fuel argument bounds the slice count and is
instantiated with the string length, which always suffices. -/
def chunkList : ℕ → List Char → List (List Char)
  | 0, _ => []
  | _ + 1, [] => []
  | fuel + 1, c :: cs =>
    (c :: cs).take CHUNK_SIZE :: chunkList fuel ((c :: cs).drop CHUNK_SIZE)

/-- The chunk sequence of a serialized memory string. -/
def serializedChunks (s : String) : List String :=
  (chunkList s.data.length s.data).map fun l => String.mk l

/-- The chunk-writing loop of `saveMemory`: chunk `i` is stored under
`chunkKey i` when `i < MAX_CHUNKS`; further chunks are silently dropped. -/
def writeChunksAux (i : ℕ) : List String → Store → Store
  | [], st => st
  | c :: rest, st =>
    writeChunksAux (i + 1) rest (if i < MAX_CHUNKS then storeSet st (chunkKey i) c else st)

/-- The clearing loop of `saveMemory`: keys from the chunk count up to
`MAX_CHUNKS` are removed. -/
def clearChunksAux (i : ℕ) : ℕ → Store → Store
  | 0, st => st
  | fuel + 1, st =>
    if i < MAX_CHUNKS then clearChunksAux (i + 1) fuel (storeRemove st (chunkKey i)) else st

/-- `saveMemory` below the serializer: chunk the serialized string, store
the first `MAX_CHUNKS` chunks, remove the keys of any excess chunks. -/
def saveSerialized (st : Store) (s : String) : Store :=
  clearChunksAux (serializedChunks s).length MAX_CHUNKS
    (writeChunksAux 0 (serializedChunks s) st)

/-- The chunk-reading loop of `loadMemory`: read keys `0..` while the chunk
is present and truthy (a missing or empty chunk stops the loop),
concatenating the chunks read so far. -/
def loadAux (st : Store) : ℕ → ℕ → String
  | _, 0 => ""
  | i, fuel + 1 =>
    (st (chunkKey i)).elim ""
      fun c => if c = "" then "" else c ++ loadAux st (i + 1) fuel

/-- The serialized string reconstructed by `loadMemory` before parsing. -/
def loadConcat (st : Store) : String := loadAux st 0 MAX_CHUNKS

/-- Concatenation of a string list, the result of the `+=` loop. -/
def concatAll : List String → String
  | [] => ""
  | c :: t => c ++ concatAll t

theorem chunkKey_inj10 : ∀ i j : Fin 10, chunkKey i = chunkKey j → (i : ℕ) = j := by
  decide

theorem chunkKey_ne {i j : ℕ} (hi : i < 10) (hj : j < 10) (hne : i ≠ j) :
    chunkKey i ≠ chunkKey j := fun h =>
  hne (chunkKey_inj10 ⟨i, hi⟩ ⟨j, hj⟩ h)

theorem MAX_CHUNKS_eq : MAX_CHUNKS = 10 := rfl

theorem writeChunksAux_past (l : List String) :
    ∀ (i j : ℕ) (st : Store), j < i → j < 10 →
      writeChunksAux i l st (chunkKey j) = st (chunkKey j) := by
  induction l with
  | nil => intro i j st _ _; rfl
  | cons c rest ih =>
    intro i j st hji hj
    rw [writeChunksAux]
    rw [ih (i + 1) j _ (Nat.lt_succ_of_lt hji) hj]
    by_cases hi : i < MAX_CHUNKS
    · rw [if_pos hi, storeSet,
        if_neg (chunkKey_ne hj (MAX_CHUNKS_eq ▸ hi) (Nat.ne_of_lt hji))]
    · rw [if_neg hi]

theorem writeChunksAux_get (l : List String) :
    ∀ (i j : ℕ) (st : Store), i ≤ j → j < 10 →
      writeChunksAux i l st (chunkKey j) = (l[j - i]?).or (st (chunkKey j)) := by
  induction l with
  | nil => intro i j st _ _; simp [writeChunksAux, Option.none_or]
  | cons c rest ih =>
    intro i j st hij hj
    rw [writeChunksAux]
    rcases Nat.lt_or_ge i j with hlt | hge
    · rw [ih (i + 1) j _ hlt hj]
      have hidx : j - i = (j - (i + 1)) + 1 := by omega
      rw [hidx, List.getElem?_cons_succ]
      by_cases hi : i < MAX_CHUNKS
      · rw [if_pos hi, storeSet,
          if_neg (chunkKey_ne hj (MAX_CHUNKS_eq ▸ hi) (Nat.ne_of_lt hlt).symm)]
      · rw [if_neg hi]
    · have hii : i = j := le_antisymm hij hge
      subst hii
      rw [writeChunksAux_past rest (i + 1) i _ (Nat.lt_succ_self i) hj]
      rw [if_pos (MAX_CHUNKS_eq ▸ hj), storeSet, if_pos rfl]
      simp [Option.or_some]

theorem clearChunksAux_get :
    ∀ (fuel i j : ℕ) (st : Store), j < 10 →
      clearChunksAux i fuel st (chunkKey j) =
        if i ≤ j ∧ j < i + fuel then none else st (chunkKey j)
  | 0, i, j, st, hj => by
    rw [clearChunksAux, if_neg (by omega)]
  | fuel + 1, i, j, st, hj => by
    rw [clearChunksAux]
    by_cases hi : i < MAX_CHUNKS
    · rw [if_pos hi, clearChunksAux_get fuel (i + 1) j _ hj]
      by_cases hcase : i + 1 ≤ j ∧ j < i + 1 + fuel
      · rw [if_pos hcase, if_pos (by omega)]
      · rw [if_neg hcase]
        by_cases hieq : i = j
        · subst hieq
          rw [if_pos (by omega), storeRemove, if_pos rfl]
        · rw [if_neg (by omega), storeRemove, if_neg (chunkKey_ne hj
            (MAX_CHUNKS_eq ▸ hi) fun h => hieq h.symm)]
    · rw [if_neg hi, if_neg (by rw [MAX_CHUNKS_eq] at hi; omega)]

theorem saveSerialized_get (st : Store) (s : String) (j : ℕ) (hj : j < 10) :
    saveSerialized st s (chunkKey j) = (serializedChunks s)[j]? := by
  rw [saveSerialized, clearChunksAux_get MAX_CHUNKS _ j _ hj]
  by_cases hc : (serializedChunks s).length ≤ j
  · rw [if_pos (by rw [MAX_CHUNKS_eq]; omega)]
    exact (List.getElem?_eq_none hc).symm
  · push_neg at hc
    rw [if_neg (by omega), writeChunksAux_get _ 0 j st (Nat.zero_le j) hj,
      Nat.sub_zero, List.getElem?_eq_getElem hc, Option.or_some]

theorem loadAux_spec :
    ∀ (cs : List String) (st : Store) (i fuel : ℕ), cs.length ≤ fuel →
      (∀ c ∈ cs, c ≠ "") → (∀ ν < fuel, st (chunkKey (i + ν)) = cs[ν]?) →
      loadAux st i fuel = concatAll cs
  | [], st, i, 0, _, _, _ => rfl
  | [], st, i, fuel + 1, _, _, hget => by
    rw [loadAux]
    have h0 := hget 0 (Nat.succ_pos fuel)
    rw [Nat.add_zero] at h0
    rw [h0, List.getElem?_nil, Option.elim_none]
    rfl
  | c :: cs, st, i, fuel + 1, hlen, hne, hget => by
    rw [loadAux]
    have h0 := hget 0 (Nat.succ_pos fuel)
    rw [Nat.add_zero] at h0
    rw [h0, List.getElem?_cons_zero, Option.elim_some]
    rw [if_neg (hne c (List.mem_cons_self c cs))]
    rw [concatAll]
    congr 1
    exact loadAux_spec cs st (i + 1) fuel (by simpa using hlen)
      (fun x hx => hne x (List.mem_cons_of_mem c hx))
      (fun ν hν => by
        have := hget (ν + 1) (by omega)
        rw [show i + 1 + ν = i + (ν + 1) by omega]
        rw [this, List.getElem?_cons_succ])

theorem CHUNK_SIZE_succ : CHUNK_SIZE = 1048575 + 1 := rfl

theorem chunkList_ne_nil : ∀ (fuel : ℕ) (s : List Char), ∀ c ∈ chunkList fuel s, c ≠ []
  | 0, _ => by intro c hc; exact absurd hc (List.not_mem_nil c)
  | _ + 1, [] => by intro c hc; exact absurd hc (List.not_mem_nil c)
  | fuel + 1, a :: as => by
    intro c hc
    rw [chunkList] at hc
    rcases List.mem_cons.mp hc with h | h
    · subst h
      rw [CHUNK_SIZE_succ, List.take_cons (Nat.succ_pos _)]
      exact List.cons_ne_nil a _
    · exact chunkList_ne_nil fuel _ c h

theorem chunkList_flatten_take :
    ∀ (fuel : ℕ) (s : List Char) (k : ℕ), s.length ≤ fuel →
      ((chunkList fuel s).take k).flatten = s.take (k * CHUNK_SIZE)
  | 0, s, k, hlen => by
    have : s = [] := List.eq_nil_of_length_eq_zero (Nat.le_zero.mp hlen)
    subst this
    simp [chunkList]
  | fuel + 1, [], k, _ => by simp [chunkList]
  | fuel + 1, a :: as, 0, _ => by simp
  | fuel + 1, a :: as, k + 1, hlen => by
    rw [chunkList, List.take_cons (Nat.succ_pos k), Nat.succ_sub_one,
      List.flatten_cons]
    rw [chunkList_flatten_take fuel ((a :: as).drop CHUNK_SIZE) k (by
      rw [List.length_drop]
      have : (a :: as).length ≤ fuel + 1 := hlen
      have hpos : 1 ≤ CHUNK_SIZE := by rw [CHUNK_SIZE_succ]; omega
      omega)]
    rw [show (k + 1) * CHUNK_SIZE = CHUNK_SIZE + k * CHUNK_SIZE by ring]
    rw [List.take_add]

theorem concatAll_map_mk :
    ∀ ll : List (List Char), concatAll (ll.map fun l => String.mk l) = String.mk ll.flatten
  | [] => rfl
  | l :: ll => by
    rw [List.map_cons, concatAll, concatAll_map_mk ll, List.flatten_cons]
    rfl

/-- The serialized string recovered by a load right after a save is the
original string truncated to the first `MAX_CHUNKS * CHUNK_SIZE`
characters: chunks beyond `MAX_CHUNKS` are dropped by the save. -/
theorem saveLoad_truncation (st : Store) (s : String) :
    loadConcat (saveSerialized st s) = String.mk (s.data.take (MAX_CHUNKS * CHUNK_SIZE)) := by
  rw [loadConcat]
  have hstep : loadAux (saveSerialized st s) 0 MAX_CHUNKS =
      concatAll ((serializedChunks s).take 10) := by
    apply loadAux_spec
    · rw [MAX_CHUNKS_eq, List.length_take]
      exact min_le_left _ _
    · intro c hc
      have hc2 := List.mem_of_mem_take hc
      rw [serializedChunks] at hc2
      rcases List.mem_map.mp hc2 with ⟨l, hl, hleq⟩
      subst hleq
      intro hmk
      exact chunkList_ne_nil _ _ l hl (by
        have := congrArg String.data hmk
        simpa using this)
    · intro ν hν
      rw [Nat.zero_add, saveSerialized_get st s ν (MAX_CHUNKS_eq ▸ hν)]
      rw [List.getElem?_take]
      rw [if_pos (MAX_CHUNKS_eq ▸ hν)]
  rw [hstep, serializedChunks, ← List.map_take, concatAll_map_mk]
  rw [chunkList_flatten_take s.data.length s.data 10 (le_refl _)]
  rfl

/-- The big string whose save drops data: one character more than
`MAX_CHUNKS` chunks can hold. -/
def bigString : String := String.mk (List.replicate (MAX_CHUNKS * CHUNK_SIZE + 1) 'a')

/-- C6 counterexample: the save/load round trip is not the identity for
every graph.  A serialized state longer than `MAX_CHUNKS * CHUNK_SIZE`
characters (10 MiB) loses its tail, so the loaded bytes differ from the
saved bytes and the graph cannot be reproduced. -/
theorem persistence_roundtrip_cex :
    loadConcat (saveSerialized emptyStore bigString) ≠ bigString := by
  rw [saveLoad_truncation]
  intro h
  have hd := congrArg String.data h
  simp only [bigString, List.take_replicate] at hd
  have hlen := congrArg List.length hd
  simp only [List.length_replicate] at hlen
  omega

/-- C6 amended: `save` writes the serialized string as `CHUNK_SIZE` chunks
under the keys `chunkKey 0 .. chunkKey (MAX_CHUNKS - 1)`, and `load`
reassembles exactly the first `MAX_CHUNKS * CHUNK_SIZE` characters of the
serialized string; the round trip therefore reproduces the serialized graph
exactly when the serialization is at most `MAX_CHUNKS * CHUNK_SIZE`
characters long, and truncates it otherwise. -/
theorem chunked_roundtrip_spec :
    (∀ (st : Store) (s : String) (j : ℕ), j < MAX_CHUNKS →
        saveSerialized st s (chunkKey j) = (serializedChunks s)[j]?) ∧
    (∀ (st : Store) (s : String),
        loadConcat (saveSerialized st s) = String.mk (s.data.take (MAX_CHUNKS * CHUNK_SIZE))) ∧
    (∀ (st : Store) (s : String), s.data.length ≤ MAX_CHUNKS * CHUNK_SIZE →
        loadConcat (saveSerialized st s) = s) :=
  ⟨fun st s j hj => saveSerialized_get st s j (MAX_CHUNKS_eq ▸ hj),
   fun st s => saveLoad_truncation st s,
   fun st s hlen => by
     rw [saveLoad_truncation, List.take_of_length_le hlen]⟩

/-- Witness for the amended C6 at a concrete store and string. -/
theorem chunked_roundtrip_spec_witness :
    ((0 : ℕ) < MAX_CHUNKS ∧
      saveSerialized emptyStore "ab" (chunkKey 0) = (serializedChunks "ab")[0]?) ∧
    (("ab" : String).data.length ≤ MAX_CHUNKS * CHUNK_SIZE ∧
      loadConcat (saveSerialized emptyStore "ab") = "ab") :=
  ⟨⟨by norm_num [MAX_CHUNKS], chunked_roundtrip_spec.1 emptyStore "ab" 0 (by norm_num [MAX_CHUNKS])⟩,
   ⟨by norm_num [MAX_CHUNKS, CHUNK_SIZE], chunked_roundtrip_spec.2.2 emptyStore "ab"
      (by norm_num [MAX_CHUNKS, CHUNK_SIZE])⟩⟩

/-- `createQuantumState` from the source, with the three `Math.random()`
draws passed explicitly: amplitude components and a phase in `[0, 2pi)`. -/
def createQuantumState (r1 r2 r3 : ℝ) : QuantumState :=
  ⟨⟨r1, r2⟩, r3 * 2 * Real.pi⟩

/-- `applyHadamardGate` from the source: scale the amplitude by
`1 / sqrt 2`, keep the phase. -/
def applyHadamardGate (s : QuantumState) : QuantumState :=
  ⟨Cx.scale (1 / Real.sqrt 2) s.amplitude, s.phase⟩

/-- `applyCNOTGate` from the source: negate the target amplitude when the
control amplitude magnitude exceeds `0.5`. -/
def applyCNOTGate (control target : QuantumState) : QuantumState × QuantumState :=
  if 0.5 < control.amplitude.abs then (control, ⟨Cx.neg target.amplitude, target.phase⟩)
  else (control, target)

/-- `quantumInterference` from the source: magnitude of the product with
the conjugate, times the cosine of the phase difference. -/
def quantumInterference (s1 s2 : QuantumState) : ℝ :=
  (Cx.mul s1.amplitude (Cx.conj s2.amplitude)).abs * Real.cos (s1.phase - s2.phase)

/-- `createHolographicPattern` from the source: a 32 by 32 pattern with
constant intensity and a noisy phase, consuming 1024 random draws starting
at index `k`. -/
def createHolographicPattern (s : QuantumState) (rho : ℕ → ℝ) (k : ℕ) : HolographicPattern :=
  { intensity := List.replicate 1024 (s.amplitude.abs ^ 2),
    phase := (List.range 1024).map fun i => s.phase + rho (k + i) * 0.1 }

/-- JavaScript remainder on real operands, the `%` of the source: the
remainder after division truncated toward zero. -/
def jsMod (x y : ℝ) : ℝ :=
  x - y * (if 0 ≤ x / y then (⌊x / y⌋ : ℝ) else (⌈x / y⌉ : ℝ))

/-- `holographicInterference` from the source: pointwise intensity sums and
pointwise phase sums reduced modulo `2 pi`. -/
def holographicInterference (p1 p2 : HolographicPattern) : HolographicPattern :=
  { intensity := p1.intensity.zipWith (· + ·) p2.intensity,
    phase := p1.phase.zipWith (fun a b => jsMod (a + b) (2 * Real.pi)) p2.phase }

/-- `reconstructHologram` from the source: amplitude from the mean
intensity, phase from the mean phase. -/
def reconstructHologram (p : HolographicPattern) : QuantumState :=
  ⟨⟨Real.sqrt (p.intensity.sum / p.intensity.length), 0⟩, p.phase.sum / p.phase.length⟩

/-- The rotated, not yet reduced, phase computed by
`applyQuantumOperation`. -/
def rotatedPhase (n : WordNode) : ℝ :=
  n.quantumState.phase + Real.pi * n.strength / MAX_MEMORY_STRENGTH

/-- The self part of `applyQuantumOperation`: rotate the phase (reduced
modulo `2 pi`) and scale the amplitude by `1.1` unless the scaled magnitude
would exceed `1`, in which case the amplitude is left unchanged. -/
def applyQuantumOperationSelf (n : WordNode) : WordNode :=
  { n with quantumState :=
      { amplitude :=
          if (Cx.scale 1.1 n.quantumState.amplitude).abs ≤ 1 then
            Cx.scale 1.1 n.quantumState.amplitude
          else n.quantumState.amplitude,
        phase := jsMod (rotatedPhase n) (2 * Real.pi) } }

/-- The entangled sweep of `applyQuantumOperation`: every entangled word
looked up through the node map as it was when ingestion started has its
phase overwritten with `ph`; the mutated objects are shared with the
evolving map, which the sweep therefore updates. -/
def entangledSweep (origDom : List String) (ph : ℝ) (ws : List String) (m : Nodes) : Nodes :=
  ws.foldl (fun acc w =>
    if w ∈ origDom then
      mapNode acc w fun n => { n with quantumState := { n.quantumState with phase := ph } }
    else acc) m

theorem Cx.abs_scale (r : ℝ) (hr : 0 ≤ r) (z : Cx) : (Cx.scale r z).abs = r * z.abs := by
  rw [Cx.scale, Cx.abs, Cx.abs]
  have h : (r * z.re) ^ 2 + (r * z.im) ^ 2 = r ^ 2 * (z.re ^ 2 + z.im ^ 2) := by ring
  rw [h, Real.sqrt_mul (sq_nonneg r), Real.sqrt_sq hr]

theorem Cx.abs_of_nonneg_re (x : ℝ) (hx : 0 ≤ x) : (Cx.abs ⟨x, 0⟩) = x := by
  rw [Cx.abs]
  have h : (x : ℝ) ^ 2 + (0 : ℝ) ^ 2 = x ^ 2 := by ring
  rw [h, Real.sqrt_sq hx]

/-- The node whose reinforcement refutes the `min` clamp reading: its
amplitude magnitude is `0.95`, so the scaled magnitude `1.045` exceeds `1`
and the source keeps `0.95` while the claim demands `1`. -/
def cexNodeC4 : WordNode := { baseNode with quantumState := ⟨⟨0.95, 0⟩, 0⟩ }

/-- C4 counterexample: reinforcement does not set the amplitude to
`min(1.1 * amplitude, 1)`.  At magnitude `0.95` the source leaves the
amplitude at `0.95` because scaling would overshoot `1`, while the claimed
formula yields `1`. -/
theorem reinforcement_amplitude_clamp_cex :
    (applyQuantumOperationSelf cexNodeC4).quantumState.amplitude.abs ≠
      min (1.1 * cexNodeC4.quantumState.amplitude.abs) 1 := by
  have hq : cexNodeC4.quantumState.amplitude = ⟨0.95, 0⟩ := rfl
  have habs : cexNodeC4.quantumState.amplitude.abs = 0.95 := by
    rw [hq, Cx.abs_of_nonneg_re 0.95 (by norm_num)]
  have hscale : (Cx.scale 1.1 cexNodeC4.quantumState.amplitude).abs = 1.1 * 0.95 := by
    rw [Cx.abs_scale 1.1 (by norm_num), habs]
  have hcond : ¬ (Cx.scale 1.1 cexNodeC4.quantumState.amplitude).abs ≤ 1 := by
    rw [hscale]; norm_num
  have hres : (applyQuantumOperationSelf cexNodeC4).quantumState.amplitude.abs = 0.95 := by
    show (if (Cx.scale 1.1 cexNodeC4.quantumState.amplitude).abs ≤ 1 then
        Cx.scale 1.1 cexNodeC4.quantumState.amplitude
      else cexNodeC4.quantumState.amplitude).abs = 0.95
    rw [if_neg hcond, habs]
  rw [hres, habs]
  norm_num

/-- C4 amended: reinforcement rotates the phase by exactly
`pi * strength / MAX_MEMORY_STRENGTH` modulo `2 pi`, and multiplies the
amplitude magnitude by `1.1` only when the scaled magnitude stays at most
`1`, leaving it unchanged otherwise (no clamp to `1`). -/
theorem reinforcement_phase_amp_spec (n : WordNode) :
    ((applyQuantumOperationSelf n).quantumState.phase =
      jsMod (n.quantumState.phase + Real.pi * n.strength / MAX_MEMORY_STRENGTH)
        (2 * Real.pi)) ∧
    ((applyQuantumOperationSelf n).quantumState.amplitude.abs =
      if 1.1 * n.quantumState.amplitude.abs ≤ 1 then 1.1 * n.quantumState.amplitude.abs
      else n.quantumState.amplitude.abs) := by
  constructor
  · rfl
  · show (if (Cx.scale 1.1 n.quantumState.amplitude).abs ≤ 1 then
        Cx.scale 1.1 n.quantumState.amplitude
      else n.quantumState.amplitude).abs = _
    rw [apply_ite Cx.abs, Cx.abs_scale 1.1 (by norm_num)]

/-- The transition-count bump of the ingestion loop: increment the stored
count, or create the entry at `1`. -/
def bumpTransition (l : List (String × ℕ)) (w : String) : List (String × ℕ) :=
  if (l.lookup w).isSome then l.map fun p => if p.1 = w then (p.1, p.2 + 1) else p
  else l ++ [(w, 1)]

/-- The node freshly created by the ingestion loop for an unseen word,
with the random draws taken from the stream starting at index `k`. -/
def createdNode (cur nxt d : String) (now : ℝ) (rho : ℕ → ℝ) (k : ℕ) : WordNode :=
  { word := cur, count := 1, next := [(nxt, 1)],
    color := ⟨rho (k + 3) * 360, 50, 50, 0.5⟩,
    documents := [d], lastAccessed := now, strength := 1,
    quantumState := createQuantumState (rho k) (rho (k + 1)) (rho (k + 2)),
    holographicPattern :=
      createHolographicPattern (createQuantumState (rho k) (rho (k + 1)) (rho (k + 2))) rho (k + 4),
    entangledNodes := [nxt],
    position := ⟨(rho (k + 1028) - 0.5) * 10, (rho (k + 1029) - 0.5) * 10,
      (rho (k + 1030) - 0.5) * 10⟩ }

/-- The field updates applied to an existing node before the quantum
operation: count, document set, access time, strength bump, entangled
successor. -/
def reinforcedNode (n : WordNode) (d : String) (now : ℝ) (nxt : String) : WordNode :=
  { n with
    count := n.count + 1,
    documents := addToSet n.documents d,
    lastAccessed := now,
    strength := min (n.strength + 0.1) MAX_MEMORY_STRENGTH,
    entangledNodes := addToSet n.entangledNodes nxt }

/-- The graph effect of `applyQuantumOperation` on the evolving map: write
the transformed node, then sweep the entangled phases. -/
def quantumStage (origDom : List String) (m : Nodes) (cur : String) (n1 : WordNode) : Nodes :=
  entangledSweep origDom (jsMod (rotatedPhase n1 + Real.pi) (2 * Real.pi))
    n1.entangledNodes (setNode m cur (applyQuantumOperationSelf n1))

/-- The Hadamard gate, fresh holographic pattern and transition bump
applied to the current node after the quantum operation. -/
def dressedNode (n3 : WordNode) (nxt : String) (rho : ℕ → ℝ) (k : ℕ) : WordNode :=
  let n4 := { n3 with quantumState := applyHadamardGate n3.quantumState }
  let n5 := { n4 with holographicPattern := createHolographicPattern n4.quantumState rho k }
  { n5 with next := bumpTransition n5.next nxt }

/-- The CNOT coupling with the successor node, when it exists: both quantum
states are reassigned from the gate result and the current node receives
the interference pattern. -/
def coupleNext (m4 : Nodes) (cur nxt : String) (n6 : WordNode) (k : ℕ) : Nodes × ℕ :=
  (lookupNode m4 nxt).elim (m4, k + 1024) fun nn =>
    let pairQ := applyCNOTGate n6.quantumState nn.quantumState
    let m5 := mapNode m4 cur fun v => { v with quantumState := pairQ.1 }
    let m6 := mapNode m5 nxt fun v => { v with quantumState := pairQ.2 }
    (mapNode m6 cur fun v =>
      { v with holographicPattern :=
          holographicInterference n6.holographicPattern nn.holographicPattern }, k + 1024)

/-- The update path of the ingestion loop for a word that already has a
node: reinforce, apply the quantum operation with its entangled sweep,
re-read the node (the sweep may have overwritten its phase), dress it, and
couple with the successor. -/
def ingestExisting (origDom : List String) (now : ℝ) (d : String) (rho : ℕ → ℝ)
    (m : Nodes) (k : ℕ) (cur nxt : String) (n : WordNode) : Nodes × ℕ :=
  let n1 := reinforcedNode n d now nxt
  let m3 := quantumStage origDom m cur n1
  let n3 := (lookupNode m3 cur).getD (applyQuantumOperationSelf n1)
  let n6 := dressedNode n3 nxt rho k
  coupleNext (setNode m3 cur n6) cur nxt n6 k

/-- Ingestion of one consecutive word pair into the evolving node map, the
body of the `processText` loop.  `origDom` is the key list of the node map
at the start of the call: entangled-phase writes reach exactly those words
(in the source the write goes through the old map, whose node objects are
shared with the shallow-copied new map).  Returns the updated map and the
advanced random index. -/
def ingestPair (origDom : List String) (now : ℝ) (d : String) (rho : ℕ → ℝ)
    (mk : Nodes × ℕ) (pair : String × String) : Nodes × ℕ :=
  (lookupNode mk.1 pair.1).elim
    (mk.1 ++ [(pair.1, createdNode pair.1 pair.2 d now rho mk.2)], mk.2 + 1031)
    (ingestExisting origDom now d rho mk.1 mk.2 pair.1 pair.2)

/-- The result of `processText`: the updated memory, whether the oversize
warning fired, and the advanced random index. -/
structure IngestResult where
  memory : Memory
  warned : Bool
  nextRandom : ℕ

/-- `processText` from the source: truncate oversized input with a warning,
tokenize, fold the pair ingestion over consecutive token pairs, store the
document text, decay the coherence, count the document. -/
def processText (text : String) (d : String) (mem : Memory) (now : ℝ)
    (rho : ℕ → ℝ) (k : ℕ) : IngestResult :=
  let warned := decide (MAX_DOCUMENT_SIZE < text.data.length)
  let t := if MAX_DOCUMENT_SIZE < text.data.length then jsSlice text MAX_DOCUMENT_SIZE else text
  let words := tokenize t
  let mk := (consecutivePairs words).foldl
    (ingestPair (mem.nodes.map Prod.fst) now d rho) (mem.nodes, k)
  { memory :=
      { nodes := mk.1,
        totalDocuments := mem.totalDocuments + 1,
        lastConsolidation := mem.lastConsolidation,
        quantumCoherence := max 0 (mem.quantumCoherence * (1 - QUANTUM_COHERENCE_DECAY)),
        documentContents := setAssoc mem.documentContents d t },
    warned := warned,
    nextRandom := mk.2 }

theorem data_mk (l : List Char) : (String.mk l).data = l := rfl

theorem jsSlice_length (s : String) (n : ℕ) (h : n ≤ s.data.length) :
    (jsSlice s n).data.length = n := by
  rw [jsSlice, data_mk, List.length_take]
  omega

/-- C8: oversized input is truncated to the first `MAX_DOCUMENT_SIZE`
characters, the truncation is reported as a warning (not an error), and the
ingestion proceeds exactly as it would on the pre-truncated input, which
itself raises no warning. -/
theorem processText_truncation_warning (text d : String) (mem : Memory) (now : ℝ)
    (rho : ℕ → ℝ) (k : ℕ) (h : MAX_DOCUMENT_SIZE < text.data.length) :
    (processText text d mem now rho k =
      { memory := (processText (jsSlice text MAX_DOCUMENT_SIZE) d mem now rho k).memory,
        warned := true,
        nextRandom := (processText (jsSlice text MAX_DOCUMENT_SIZE) d mem now rho k).nextRandom }) ∧
    (processText (jsSlice text MAX_DOCUMENT_SIZE) d mem now rho k).warned = false := by
  have hlen : (jsSlice text MAX_DOCUMENT_SIZE).data.length = MAX_DOCUMENT_SIZE :=
    jsSlice_length text MAX_DOCUMENT_SIZE (le_of_lt h)
  have hnot : ¬ MAX_DOCUMENT_SIZE < (jsSlice text MAX_DOCUMENT_SIZE).data.length := by
    rw [hlen]
    exact lt_irrefl _
  constructor
  · simp only [processText, if_pos h, if_neg hnot, decide_eq_true h]
  · simp only [processText]
    exact decide_eq_false hnot

/-- A memory with no nodes and no documents. -/
def emptyMem : Memory :=
  { nodes := [], totalDocuments := 0, lastConsolidation := 0, quantumCoherence := 1,
    documentContents := [] }

/-- A constant random stream. -/
def rho0 : ℕ → ℝ := fun _ => 0

/-- A document one character longer than the processing limit. -/
def bigDoc : String := String.mk (List.replicate 1000001 'a')

/-- Witness for C8 at a concrete oversized document. -/
theorem processText_truncation_warning_witness :
    MAX_DOCUMENT_SIZE < bigDoc.data.length ∧
      ((processText bigDoc "d" emptyMem 0 rho0 0 =
        { memory := (processText (jsSlice bigDoc MAX_DOCUMENT_SIZE) "d" emptyMem 0 rho0 0).memory,
          warned := true,
          nextRandom :=
            (processText (jsSlice bigDoc MAX_DOCUMENT_SIZE) "d" emptyMem 0 rho0 0).nextRandom }) ∧
      (processText (jsSlice bigDoc MAX_DOCUMENT_SIZE) "d" emptyMem 0 rho0 0).warned = false) :=
  ⟨by norm_num [bigDoc, data_mk, List.length_replicate, MAX_DOCUMENT_SIZE],
    processText_truncation_warning bigDoc "d" emptyMem 0 rho0 0
      (by norm_num [bigDoc, data_mk, List.length_replicate, MAX_DOCUMENT_SIZE])⟩

theorem lookupNode_append (m1 m2 : Nodes) (w : String) :
    lookupNode (m1 ++ m2) w = (lookupNode m1 w).or (lookupNode m2 w) := by
  induction m1 with
  | nil => rw [List.nil_append]; rfl
  | cons p t ih =>
    obtain ⟨k, n⟩ := p
    by_cases hk : k = w
    · rw [List.cons_append, lookupNode, if_pos hk, lookupNode, if_pos hk, Option.or_some]
    · rw [List.cons_append, lookupNode, if_neg hk, lookupNode, if_neg hk, ih]

theorem lookup_mapNode (v w : String) (f : WordNode → WordNode) :
    ∀ m : Nodes, lookupNode (mapNode m v f) w =
      if w = v then (lookupNode m w).map f else lookupNode m w
  | [] => by
    by_cases hwv : w = v
    · rw [if_pos hwv]; rfl
    · rw [if_neg hwv]; rfl
  | (k, n) :: t => by
    rw [mapNode]
    by_cases hk : k = v
    · rw [if_pos hk]
      by_cases hkw : k = w
      · rw [lookupNode, if_pos hkw, lookupNode, if_pos hkw,
          if_pos (by rw [← hkw]; exact hk)]
        rfl
      · rw [lookupNode, if_neg hkw, lookupNode, if_neg hkw, lookup_mapNode v w f t]
    · rw [if_neg hk]
      by_cases hkw : k = w
      · rw [lookupNode, if_pos hkw, lookupNode, if_pos hkw,
          if_neg (by rw [← hkw]; exact hk)]
      · rw [lookupNode, if_neg hkw, lookupNode, if_neg hkw, lookup_mapNode v w f t]

theorem lookup_setNode (m : Nodes) (v w : String) (n : WordNode) :
    lookupNode (setNode m v n) w = if w = v then some n else lookupNode m w := by
  rw [setNode]
  by_cases hp : (lookupNode m v).isSome
  · rw [if_pos hp, lookup_mapNode]
    by_cases hwv : w = v
    · rw [if_pos hwv, if_pos hwv]
      subst hwv
      rcases Option.isSome_iff_exists.mp hp with ⟨x, hx⟩
      rw [hx]
      rfl
    · rw [if_neg hwv, if_neg hwv]
  · rw [if_neg hp, lookupNode_append]
    by_cases hwv : w = v
    · subst hwv
      rw [if_pos rfl, Option.not_isSome_iff_eq_none.mp hp, Option.none_or,
        lookupNode, if_pos rfl]
    · rw [if_neg hwv, lookupNode, if_neg fun h => hwv h.symm]
      rw [show lookupNode [] w = none from rfl]
      exact Option.or_none

theorem lookup_setNode_none {m : Nodes} {v w : String} {n : WordNode}
    (hwv : w ≠ v) (h : lookupNode m w = none) : lookupNode (setNode m v n) w = none := by
  rw [lookup_setNode, if_neg hwv]
  exact h

theorem lookup_mapNode_none {m : Nodes} {v w : String} {f : WordNode → WordNode}
    (h : lookupNode m w = none) : lookupNode (mapNode m v f) w = none := by
  rw [lookup_mapNode]
  by_cases hwv : w = v
  · rw [if_pos hwv, h]
    rfl
  · rw [if_neg hwv]
    exact h

theorem entangledSweep_cons (origDom : List String) (ph : ℝ) (x : String)
    (ws : List String) (m : Nodes) :
    entangledSweep origDom ph (x :: ws) m =
      entangledSweep origDom ph ws
        (if x ∈ origDom then
          mapNode m x fun n => { n with quantumState := { n.quantumState with phase := ph } }
        else m) := by
  rw [entangledSweep, entangledSweep, List.foldl_cons]

theorem sweep_absent (origDom : List String) (ph : ℝ) (w : String) :
    ∀ (ws : List String) (m : Nodes), lookupNode m w = none →
      lookupNode (entangledSweep origDom ph ws m) w = none
  | [], _, h => h
  | x :: ws, m, h => by
    rw [entangledSweep_cons]
    apply sweep_absent origDom ph w ws
    by_cases hxo : x ∈ origDom
    · rw [if_pos hxo]
      exact lookup_mapNode_none h
    · rw [if_neg hxo]
      exact h

theorem sweep_not_mem (origDom : List String) (ph : ℝ) (w : String) :
    ∀ (ws : List String) (m : Nodes), w ∉ ws →
      lookupNode (entangledSweep origDom ph ws m) w = lookupNode m w
  | [], _, _ => rfl
  | x :: ws, m, h => by
    rw [entangledSweep_cons]
    rw [sweep_not_mem origDom ph w ws _ fun hmem => h (List.mem_cons_of_mem x hmem)]
    by_cases hxo : x ∈ origDom
    · rw [if_pos hxo, lookup_mapNode,
        if_neg fun he => h (by rw [he]; exact List.mem_cons_self x ws)]
    · rw [if_neg hxo]

theorem sweep_mem (origDom : List String) (ph : ℝ) (w : String) (hdom : w ∈ origDom) :
    ∀ (ws : List String) (m : Nodes), w ∈ ws →
      lookupNode (entangledSweep origDom ph ws m) w =
        (lookupNode m w).map fun n =>
          { n with quantumState := { n.quantumState with phase := ph } }
  | [], _, h => absurd h (List.not_mem_nil w)
  | x :: ws, m, h => by
    rw [entangledSweep_cons]
    by_cases hws : w ∈ ws
    · rw [sweep_mem origDom ph w hdom ws _ hws]
      by_cases hwx : w = x
      · subst hwx
        rw [if_pos hdom, lookup_mapNode, if_pos rfl]
        cases lookupNode m w <;> rfl
      · by_cases hxo : x ∈ origDom
        · rw [if_pos hxo, lookup_mapNode, if_neg hwx]
        · rw [if_neg hxo]
    · have hwx : w = x := by
        rcases List.mem_cons.mp h with h1 | h2
        · exact h1
        · exact absurd h2 hws
      subst hwx
      rw [if_pos hdom, sweep_not_mem origDom ph w ws _ hws, lookup_mapNode, if_pos rfl]

theorem mem_addToSet_self (l : List String) (x : String) : x ∈ addToSet l x := by
  rw [addToSet]
  by_cases h : x ∈ l
  · rw [if_pos h]
    exact h
  · rw [if_neg h]
    exact List.mem_append_right l (List.mem_singleton.mpr rfl)

theorem coupleNext_absent {m4 : Nodes} {cur nxt w : String} {n6 : WordNode} {k : ℕ}
    (habs : lookupNode m4 w = none) :
    lookupNode (coupleNext m4 cur nxt n6 k).1 w = none := by
  rw [coupleNext]
  cases hnn : lookupNode m4 nxt with
  | none =>
    rw [Option.elim_none]
    exact habs
  | some nn =>
    rw [Option.elim_some]
    exact lookup_mapNode_none (lookup_mapNode_none (lookup_mapNode_none habs))

theorem ingestExisting_absent (origDom : List String) (now : ℝ) (d : String)
    (rho : ℕ → ℝ) (m : Nodes) (k : ℕ) (cur nxt : String) (n : WordNode) {w : String}
    (hw : w ≠ cur) (habs : lookupNode m w = none) :
    lookupNode (ingestExisting origDom now d rho m k cur nxt n).1 w = none := by
  simp only [ingestExisting]
  apply coupleNext_absent
  apply lookup_setNode_none hw
  rw [quantumStage]
  exact sweep_absent _ _ _ _ _ (lookup_setNode_none hw habs)

theorem ingestPair_absent (origDom : List String) (now : ℝ) (d : String)
    (rho : ℕ → ℝ) (mk : Nodes × ℕ) (pair : String × String) {w : String}
    (hw : w ≠ pair.1) (habs : lookupNode mk.1 w = none) :
    lookupNode (ingestPair origDom now d rho mk pair).1 w = none := by
  rw [ingestPair]
  cases hl : lookupNode mk.1 pair.1 with
  | none =>
    rw [Option.elim_none]
    rw [lookupNode_append, habs, Option.none_or, lookupNode,
      if_neg fun h => hw h.symm]
    rfl
  | some n =>
    rw [Option.elim_some]
    exact ingestExisting_absent origDom now d rho mk.1 mk.2 pair.1 pair.2 n hw habs

theorem ingestFold_absent (origDom : List String) (now : ℝ) (d : String) (rho : ℕ → ℝ) :
    ∀ (pairs : List (String × String)) (mk : Nodes × ℕ) (w : String),
      w ∉ pairs.map Prod.fst → lookupNode mk.1 w = none →
      lookupNode ((pairs.foldl (ingestPair origDom now d rho) mk)).1 w = none
  | [], _, _, _, h => h
  | p :: pairs, mk, w, hmem, h => by
    rw [List.foldl_cons]
    refine ingestFold_absent origDom now d rho pairs _ w
      (fun hx => hmem (List.mem_cons_of_mem _ hx)) ?_
    refine ingestPair_absent origDom now d rho mk p ?_ h
    intro he
    exact hmem (by rw [List.map_cons, he]; exact List.mem_cons_self _ _)

theorem consecutivePairs_short {α : Type} : ∀ l : List α, l.length < 2 → consecutivePairs l = []
  | [], _ => rfl
  | [_], _ => rfl
  | _ :: _ :: _, h => absurd h (by simp [List.length_cons])

/-- C10 amended: ingesting a text with fewer than two tokens leaves the
node map unchanged, and ingestion creates a node only for words occurring
as the first element of a consecutive pair — in particular never for the
final token.  (Unlike the original claim, existing successor and entangled
nodes can still be updated in place by the coupling and the entangled
sweep.) -/
theorem ingest_creation_only_firsts :
    (∀ (text d : String) (mem : Memory) (now : ℝ) (rho : ℕ → ℝ) (k : ℕ),
        (tokenize (if MAX_DOCUMENT_SIZE < text.data.length then
          jsSlice text MAX_DOCUMENT_SIZE else text)).length < 2 →
        (processText text d mem now rho k).memory.nodes = mem.nodes) ∧
    (∀ (text d : String) (mem : Memory) (now : ℝ) (rho : ℕ → ℝ) (k : ℕ) (w : String),
        w ∉ (consecutivePairs (tokenize (if MAX_DOCUMENT_SIZE < text.data.length then
          jsSlice text MAX_DOCUMENT_SIZE else text))).map Prod.fst →
        lookupNode mem.nodes w = none →
        lookupNode (processText text d mem now rho k).memory.nodes w = none) := by
  constructor
  · intro text d mem now rho k h
    simp only [processText]
    rw [consecutivePairs_short _ h]
    rfl
  · intro text d mem now rho k w hmem habs
    simp only [processText]
    exact ingestFold_absent _ now d rho _ _ w hmem habs

/-- Witness for the amended C10 at concrete inputs. -/
theorem ingest_creation_only_firsts_witness :
    ((tokenize (if MAX_DOCUMENT_SIZE < ("hi" : String).data.length then
        jsSlice "hi" MAX_DOCUMENT_SIZE else "hi")).length < 2 ∧
      (processText "hi" "d" emptyMem 0 rho0 0).memory.nodes = emptyMem.nodes) ∧
    ("q" ∉ (consecutivePairs (tokenize (if MAX_DOCUMENT_SIZE < ("a b" : String).data.length then
        jsSlice "a b" MAX_DOCUMENT_SIZE else "a b"))).map Prod.fst ∧
      lookupNode emptyMem.nodes "q" = none ∧
      lookupNode (processText "a b" "d" emptyMem 0 rho0 0).memory.nodes "q" = none) :=
  ⟨⟨by decide, ingest_creation_only_firsts.1 "hi" "d" emptyMem 0 rho0 0 (by decide)⟩,
   ⟨by decide, rfl,
    ingest_creation_only_firsts.2 "a b" "d" emptyMem 0 rho0 0 "q" (by decide) rfl⟩⟩

theorem dressedNode_qs (n3 : WordNode) (nxt : String) (rho : ℕ → ℝ) (k : ℕ) :
    (dressedNode n3 nxt rho k).quantumState = applyHadamardGate n3.quantumState := rfl

theorem coupleNext_next_effect {m4 : Nodes} {cur nxt : String} {n6 : WordNode} {k : ℕ}
    {nn : WordNode} (hne : nxt ≠ cur) (hnn : lookupNode m4 nxt = some nn) :
    lookupNode (coupleNext m4 cur nxt n6 k).1 nxt =
      some { nn with quantumState := (applyCNOTGate n6.quantumState nn.quantumState).2 } := by
  rw [coupleNext, hnn, Option.elim_some]
  show lookupNode (mapNode (mapNode (mapNode m4 cur _) nxt _) cur _) nxt = _
  rw [lookup_mapNode, if_neg hne, lookup_mapNode, if_pos rfl,
    lookup_mapNode, if_neg hne, hnn]
  rfl

theorem ingestExisting_next_effect (origDom : List String) (now : ℝ) (d : String)
    (rho : ℕ → ℝ) (m : Nodes) (k : ℕ) (cur nxt : String) (n b : WordNode)
    (hne : nxt ≠ cur)
    (hdom : nxt ∈ origDom)
    (hcur : cur ∉ (reinforcedNode n d now nxt).entangledNodes)
    (hb : lookupNode m nxt = some b) :
    lookupNode (ingestExisting origDom now d rho m k cur nxt n).1 nxt =
      some { b with quantumState :=
        (applyCNOTGate
          (applyHadamardGate
            (applyQuantumOperationSelf (reinforcedNode n d now nxt)).quantumState)
          ⟨b.quantumState.amplitude,
            jsMod (rotatedPhase (reinforcedNode n d now nxt) + Real.pi)
              (2 * Real.pi)⟩).2 } := by
  simp only [ingestExisting]
  have hm3cur : lookupNode (quantumStage origDom m cur (reinforcedNode n d now nxt)) cur =
      some (applyQuantumOperationSelf (reinforcedNode n d now nxt)) := by
    rw [quantumStage, sweep_not_mem _ _ _ _ _ hcur, lookup_setNode, if_pos rfl]
  have hm3nxt : lookupNode (quantumStage origDom m cur (reinforcedNode n d now nxt)) nxt =
      some { b with quantumState := { b.quantumState with
        phase := jsMod (rotatedPhase (reinforcedNode n d now nxt) + Real.pi)
          (2 * Real.pi) } } := by
    have hmem : nxt ∈ (reinforcedNode n d now nxt).entangledNodes := by
      rw [show (reinforcedNode n d now nxt).entangledNodes = addToSet n.entangledNodes nxt
        from rfl]
      exact mem_addToSet_self _ _
    rw [quantumStage, sweep_mem _ _ _ hdom _ _ hmem,
      lookup_setNode, if_neg hne, hb]
    rfl
  rw [hm3cur, Option.getD_some]
  rw [coupleNext_next_effect hne (by rw [lookup_setNode, if_neg hne]; exact hm3nxt)]
  rw [dressedNode_qs]

/-- The node for the word `a` in the C10 counterexample. -/
def nodeA10 : WordNode := { baseNode with word := "a" }

/-- The node for the word `b` in the C10 counterexample: amplitude `0.6`,
phase `1`. -/
def nodeB10 : WordNode := { baseNode with word := "b", quantumState := ⟨⟨0.6, 0⟩, 1⟩ }

/-- The memory refuting the claim that non-first words are never updated. -/
def cexMemC10 : Memory :=
  { nodes := [("a", nodeA10), ("b", nodeB10)], totalDocuments := 0, lastConsolidation := 0,
    quantumCoherence := 1, documentContents := [] }

theorem sqrt_two_lt_two : Real.sqrt 2 < 2 := by
  nlinarith [Real.sq_sqrt (show (0:ℝ) ≤ 2 by norm_num), Real.sqrt_nonneg 2]

theorem half_lt_inv_sqrt_two : (0.5 : ℝ) < 1 / Real.sqrt 2 := by
  have hpos : (0 : ℝ) < Real.sqrt 2 := Real.sqrt_pos.mpr (by norm_num)
  have h := one_div_lt_one_div_of_lt hpos sqrt_two_lt_two
  norm_num at h ⊢
  linarith

/-- C10 counterexample: ingesting the text `a b` into a graph holding both
`a` and `b` updates the node of `b`, even though `b` never occurs as the
first element of a consecutive token pair: the CNOT coupling negates its
amplitude (and the entangled sweep rewrites its phase). -/
theorem ingest_touches_nonfirst_cex :
    ("b" ∉ (consecutivePairs (tokenize "a b")).map Prod.fst) ∧
    lookupNode (processText "a b" "d" cexMemC10 0 rho0 0).memory.nodes "b" ≠
      lookupNode cexMemC10.nodes "b" := by
  constructor
  · decide
  · have hproc : (processText "a b" "d" cexMemC10 0 rho0 0).memory.nodes =
        ((consecutivePairs (tokenize "a b")).foldl
          (ingestPair (cexMemC10.nodes.map Prod.fst) 0 "d" rho0) (cexMemC10.nodes, 0)).1 := by
      simp only [processText,
        if_neg (show ¬ MAX_DOCUMENT_SIZE < ("a b" : String).data.length by decide)]
    rw [hproc]
    rw [show consecutivePairs (tokenize "a b") = [("a", "b")] from by decide]
    rw [List.foldl_cons, List.foldl_nil]
    rw [show ingestPair (cexMemC10.nodes.map Prod.fst) 0 "d" rho0 (cexMemC10.nodes, 0)
        ("a", "b") =
      ingestExisting (cexMemC10.nodes.map Prod.fst) 0 "d" rho0 cexMemC10.nodes 0 "a" "b"
        nodeA10 from by
      rw [ingestPair, show lookupNode (cexMemC10.nodes, (0:ℕ)).1 ("a", "b").1 =
        some nodeA10 from rfl, Option.elim_some]]
    rw [ingestExisting_next_effect (cexMemC10.nodes.map Prod.fst) 0 "d" rho0
      cexMemC10.nodes 0 "a" "b" nodeA10 nodeB10
      (by decide) (by decide) (by decide) rfl]
    rw [show lookupNode cexMemC10.nodes "b" = some nodeB10 from rfl]
    have hampR : (applyQuantumOperationSelf (reinforcedNode nodeA10 "d" 0 "b")).quantumState.amplitude
        = (⟨1, 0⟩ : Cx) := by
      show (if (Cx.scale 1.1 (reinforcedNode nodeA10 "d" 0 "b").quantumState.amplitude).abs ≤ 1
        then Cx.scale 1.1 (reinforcedNode nodeA10 "d" 0 "b").quantumState.amplitude
        else (reinforcedNode nodeA10 "d" 0 "b").quantumState.amplitude) = (⟨1, 0⟩ : Cx)
      rw [show (reinforcedNode nodeA10 "d" 0 "b").quantumState.amplitude = (⟨1, 0⟩ : Cx)
        from rfl]
      rw [if_neg]
      rw [Cx.abs_scale 1.1 (by norm_num), Cx.abs_of_nonneg_re 1 (by norm_num)]
      norm_num
    have hcnot : (0.5 : ℝ) <
        (applyHadamardGate
          (applyQuantumOperationSelf (reinforcedNode nodeA10 "d" 0 "b")).quantumState).amplitude.abs := by
      show (0.5 : ℝ) < (Cx.scale (1 / Real.sqrt 2)
        (applyQuantumOperationSelf (reinforcedNode nodeA10 "d" 0 "b")).quantumState.amplitude).abs
      rw [hampR, Cx.abs_scale (1 / Real.sqrt 2)
        (by positivity), Cx.abs_of_nonneg_re 1 (by norm_num), mul_one]
      exact half_lt_inv_sqrt_two
    intro h
    rw [applyCNOTGate, if_pos hcnot] at h
    have h2 := congrArg (fun x => ((x.getD baseNode).quantumState.amplitude.re)) h
    simp only [Option.getD_some] at h2
    have h3 : -(0.6 : ℝ) = 0.6 := by
      have : nodeB10.quantumState.amplitude.re = 0.6 := rfl
      rw [← this]
      exact h2
    norm_num at h3

/-- C5 counterexample: a node created during ingest can have resonance
amplitude above `1`: with both uniform draws at `0.9` the created amplitude
magnitude is `sqrt 1.62 > 1`. -/
theorem amplitude_invariant_cex :
    1 < ((lookupNode (processText "x y" "d" emptyMem 0 (fun _ => 0.9) 0).memory.nodes "x").getD
      baseNode).quantumState.amplitude.abs := by
  have hnodes : (processText "x y" "d" emptyMem 0 (fun _ => 0.9) 0).memory.nodes =
      [("x", createdNode "x" "y" "d" 0 (fun _ => 0.9) 0)] := by
    simp only [processText,
      if_neg (show ¬ MAX_DOCUMENT_SIZE < ("x y" : String).data.length by decide)]
    rw [show consecutivePairs (tokenize "x y") = [("x", "y")] from by decide]
    rw [List.foldl_cons, List.foldl_nil, ingestPair]
    rw [show lookupNode (emptyMem.nodes, (0:ℕ)).1 ("x", "y").1 = none from rfl,
      Option.elim_none]
    rfl
  rw [hnodes]
  rw [show lookupNode [("x", createdNode "x" "y" "d" 0 (fun _ => 0.9) 0)] "x" =
      some (createdNode "x" "y" "d" 0 (fun _ => 0.9) 0) from rfl, Option.getD_some]
  rw [show (createdNode "x" "y" "d" 0 (fun _ => 0.9) 0).quantumState.amplitude =
      (⟨0.9, 0.9⟩ : Cx) from rfl]
  rw [Cx.abs]
  rw [show ((0.9 : ℝ) ^ 2 + (0.9 : ℝ) ^ 2) = 1.62 by norm_num]
  exact (Real.lt_sqrt (by norm_num)).mpr (by norm_num)

/-- C5 amended: the amplitude of a freshly created quantum state is only
bounded by `sqrt 2` (it exceeds `1` whenever both uniform draws are large),
and the reinforcement operation never pushes an amplitude that is at most
`max 1` of its current magnitude beyond that bound: scaling happens only
when the result stays at most `1`. -/
theorem amplitude_creation_bound :
    (∀ r1 r2 r3 : ℝ, 0 ≤ r1 → r1 < 1 → 0 ≤ r2 → r2 < 1 →
        (createQuantumState r1 r2 r3).amplitude.abs < Real.sqrt 2) ∧
    (∀ n : WordNode,
        (applyQuantumOperationSelf n).quantumState.amplitude.abs ≤
          max 1 n.quantumState.amplitude.abs) := by
  constructor
  · intro r1 r2 r3 h1 h1' h2 h2'
    show Cx.abs ⟨r1, r2⟩ < Real.sqrt 2
    rw [Cx.abs]
    apply Real.sqrt_lt_sqrt (by positivity)
    nlinarith
  · intro n
    show (if (Cx.scale 1.1 n.quantumState.amplitude).abs ≤ 1 then
        Cx.scale 1.1 n.quantumState.amplitude
      else n.quantumState.amplitude).abs ≤ _
    by_cases hc : (Cx.scale 1.1 n.quantumState.amplitude).abs ≤ 1
    · rw [if_pos hc]
      exact le_trans hc (le_max_left _ _)
    · rw [if_neg hc]
      exact le_max_right _ _

/-- Witness for the amended C5 at concrete draws. -/
theorem amplitude_creation_bound_witness :
    (0 : ℝ) ≤ 1 / 2 ∧ (1 / 2 : ℝ) < 1 ∧
      (createQuantumState (1 / 2) (1 / 2) 0).amplitude.abs < Real.sqrt 2 :=
  ⟨by norm_num, by norm_num,
    amplitude_creation_bound.1 (1 / 2) (1 / 2) 0 (by norm_num) (by norm_num)
      (by norm_num) (by norm_num)⟩

/-- Strength of a candidate word as read during generation, zero when the
word has no node. -/
def strengthOf (m : Nodes) (w : String) : ℝ :=
  ((lookupNode m w).map WordNode.strength).getD 0

/-- The entanglement boost of the generation loop: `1.5` for successors in
the entangled set, `1` otherwise. -/
def entangledFactor (node : WordNode) (w : String) : ℝ :=
  if w ∈ node.entangledNodes then 1.5 else 1

/-- The comparator key of the generation sort: transition count times
candidate strength times entanglement boost. -/
def sortKey (m : Nodes) (node : WordNode) (p : String × ℕ) : ℝ :=
  (p.2 : ℝ) * strengthOf m p.1 * entangledFactor node p.1

/-- The sorted successor list of the generation loop, descending by
`sortKey`.  The JavaScript sort is stable; ties play no role in the
statements below. -/
def sortedNextWords (m : Nodes) (node : WordNode) : List (String × ℕ) :=
  List.insertionSort (fun a b => sortKey m node b ≤ sortKey m node a) node.next

/-- The total weight of the draw: strength times boost summed over all
successors (the transition count is absent). -/
def totalStrength (m : Nodes) (node : WordNode) (l : List (String × ℕ)) : ℝ :=
  l.foldl (fun s p => s + strengthOf m p.1 * entangledFactor node p.1) 0

/-- The selection loop of the generation walk: subtract each present
candidate's strength times boost from the running value and stop at the
first nonpositive remainder; candidates without a node are skipped
entirely. -/
def drawNext (m : Nodes) (node : WordNode) : List (String × ℕ) → ℝ → String → String
  | [], _, res => res
  | p :: rest, r, res =>
    (lookupNode m p.1).elim (drawNext m node rest r res) fun n =>
      if r - n.strength * entangledFactor node p.1 ≤ 0 then p.1
      else drawNext m node rest (r - n.strength * entangledFactor node p.1) res

/-- The next-word selection of the generation loop: sort, then draw with
the uniform value `u` scaled by the total weight, defaulting to the first
sorted candidate. -/
def selectNextWord (m : Nodes) (node : WordNode) (u : ℝ) : String :=
  drawNext m node (sortedNextWords m node)
    (u * totalStrength m node (sortedNextWords m node))
    (((sortedNextWords m node).head?.map Prod.fst).getD "")

/-- A cumulative-distribution draw over explicit weights: subtract each
weight from the running value, stopping at the first nonpositive
remainder. -/
def cumulativeDraw : List (String × ℝ) → ℝ → String → String
  | [], _, res => res
  | p :: rest, r, res => if r - p.2 ≤ 0 then p.1 else cumulativeDraw rest (r - p.2) res

/-- Modelled from the spec wording of C3: the resonance score of a
candidate successor, transition count times candidate strength times the
amplitude-cosine resonance term, boosted for entangled candidates. -/
def specResonanceScore (m : Nodes) (node : WordNode) (p : String × ℕ) : ℝ :=
  (lookupNode m p.1).elim 0 fun c =>
    (p.2 : ℝ) * c.strength *
      (node.quantumState.amplitude.abs * c.quantumState.amplitude.abs *
        Real.cos (node.quantumState.phase - c.quantumState.phase)) *
      entangledFactor node p.1

/-- Modelled from the spec: the draw C3 describes, over the successors in
insertion order with resonance-score weights against a uniform value
scaled to `[0, totalScore)`. -/
def specNextWord (m : Nodes) (node : WordNode) (u : ℝ) : String :=
  cumulativeDraw (node.next.map fun p => (p.1, specResonanceScore m node p))
    (u * (node.next.map fun p => specResonanceScore m node p).sum)
    ((node.next.head?.map Prod.fst).getD "")

/-- The current node of the C3 counterexample: successor `a` with count 100
and successor `b` with count 1, no entanglement, amplitude 1, phase 0. -/
def cexNodeC3 : WordNode := { baseNode with word := "c", next := [("a", 100), ("b", 1)] }

/-- The candidate node `a` of the C3 counterexample. -/
def cexNodeA3 : WordNode := { baseNode with word := "a" }

/-- The candidate node `b` of the C3 counterexample. -/
def cexNodeB3 : WordNode := { baseNode with word := "b" }

/-- The node map of the C3 counterexample. -/
def cexNodesC3 : Nodes := [("c", cexNodeC3), ("a", cexNodeA3), ("b", cexNodeB3)]

/-- C3 counterexample: the generation draw does not follow the claimed
resonance-score distribution.  With candidate counts 100 and 1 and all
strengths, amplitudes and cosines equal to one, the claimed draw at the
uniform value `3/4` picks `a` (weight 100 of 101) while the source picks
`b` (both weights are the bare strength 1). -/
theorem generation_draw_resonance_cex :
    selectNextWord cexNodesC3 cexNodeC3 (3 / 4) ≠ specNextWord cexNodesC3 cexNodeC3 (3 / 4) := by
  have hsB : sortKey cexNodesC3 cexNodeC3 ("b", 1) = 1 := by
    rw [sortKey, show strengthOf cexNodesC3 ("b", (1:ℕ)).1 = 1 from rfl,
      show entangledFactor cexNodeC3 ("b", (1:ℕ)).1 = 1 from rfl]
    norm_num
  have hsA : sortKey cexNodesC3 cexNodeC3 ("a", 100) = 100 := by
    rw [sortKey, show strengthOf cexNodesC3 ("a", (100:ℕ)).1 = 1 from rfl,
      show entangledFactor cexNodeC3 ("a", (100:ℕ)).1 = 1 from rfl]
    norm_num
  have hsort : sortedNextWords cexNodesC3 cexNodeC3 = [("a", 100), ("b", 1)] := by
    rw [sortedNextWords, show cexNodeC3.next = [("a", 100), ("b", 1)] from rfl]
    simp only [List.insertionSort, List.orderedInsert]
    rw [if_pos (by rw [hsA, hsB]; norm_num)]
  have htot : totalStrength cexNodesC3 cexNodeC3 [("a", 100), ("b", 1)] = 2 := by
    simp only [totalStrength, List.foldl_cons, List.foldl_nil]
    rw [show strengthOf cexNodesC3 ("a", (100:ℕ)).1 = 1 from rfl,
      show strengthOf cexNodesC3 ("b", (1:ℕ)).1 = 1 from rfl,
      show entangledFactor cexNodeC3 ("a", (100:ℕ)).1 = 1 from rfl,
      show entangledFactor cexNodeC3 ("b", (1:ℕ)).1 = 1 from rfl]
    norm_num
  have hsel : selectNextWord cexNodesC3 cexNodeC3 (3 / 4) = "b" := by
    rw [selectNextWord, hsort, htot]
    rw [drawNext, show lookupNode cexNodesC3 ("a", (100:ℕ)).1 = some cexNodeA3 from rfl,
      Option.elim_some]
    rw [if_neg (by
      rw [show cexNodeA3.strength = (1:ℝ) from rfl,
        show entangledFactor cexNodeC3 ("a", (100:ℕ)).1 = 1 from rfl]
      norm_num)]
    rw [drawNext, show lookupNode cexNodesC3 ("b", (1:ℕ)).1 = some cexNodeB3 from rfl,
      Option.elim_some]
    rw [if_pos (by
      rw [show cexNodeB3.strength = (1:ℝ) from rfl,
        show entangledFactor cexNodeC3 ("b", (1:ℕ)).1 = 1 from rfl,
        show cexNodeA3.strength = (1:ℝ) from rfl,
        show entangledFactor cexNodeC3 ("a", (100:ℕ)).1 = 1 from rfl]
      norm_num)]
  have hscA : specResonanceScore cexNodesC3 cexNodeC3 ("a", 100) = 100 := by
    rw [specResonanceScore, show lookupNode cexNodesC3 ("a", (100:ℕ)).1 = some cexNodeA3
      from rfl, Option.elim_some]
    rw [show cexNodeC3.quantumState.amplitude = (⟨1, 0⟩ : Cx) from rfl,
      show cexNodeA3.quantumState.amplitude = (⟨1, 0⟩ : Cx) from rfl,
      Cx.abs_of_nonneg_re 1 (by norm_num),
      show cexNodeC3.quantumState.phase = (0:ℝ) from rfl,
      show cexNodeA3.quantumState.phase = (0:ℝ) from rfl,
      show cexNodeA3.strength = (1:ℝ) from rfl,
      show entangledFactor cexNodeC3 ("a", (100:ℕ)).1 = 1 from rfl]
    rw [sub_zero, Real.cos_zero]
    norm_num
  have hscB : specResonanceScore cexNodesC3 cexNodeC3 ("b", 1) = 1 := by
    rw [specResonanceScore, show lookupNode cexNodesC3 ("b", (1:ℕ)).1 = some cexNodeB3
      from rfl, Option.elim_some]
    rw [show cexNodeC3.quantumState.amplitude = (⟨1, 0⟩ : Cx) from rfl,
      show cexNodeB3.quantumState.amplitude = (⟨1, 0⟩ : Cx) from rfl,
      Cx.abs_of_nonneg_re 1 (by norm_num),
      show cexNodeC3.quantumState.phase = (0:ℝ) from rfl,
      show cexNodeB3.quantumState.phase = (0:ℝ) from rfl,
      show cexNodeB3.strength = (1:ℝ) from rfl,
      show entangledFactor cexNodeC3 ("b", (1:ℕ)).1 = 1 from rfl]
    rw [sub_zero, Real.cos_zero]
    norm_num
  have hspec : specNextWord cexNodesC3 cexNodeC3 (3 / 4) = "a" := by
    rw [specNextWord, show cexNodeC3.next = [("a", 100), ("b", 1)] from rfl]
    simp only [List.map_cons, List.map_nil]
    rw [hscA, hscB, List.sum_cons, List.sum_cons, List.sum_nil]
    rw [cumulativeDraw]
    rw [if_pos (by norm_num)]
  rw [hsel, hspec]
  decide

theorem foldl_add_weights (w : String × ℕ → ℝ) :
    ∀ (l : List (String × ℕ)) (a : ℝ),
      l.foldl (fun s p => s + w p) a = a + (l.map w).sum
  | [], a => by simp
  | p :: l, a => by
    rw [List.foldl_cons, foldl_add_weights w l (a + w p), List.map_cons, List.sum_cons]
    ring

theorem drawNext_eq_cumulativeDraw (m : Nodes) (node : WordNode) :
    ∀ (l : List (String × ℕ)) (r : ℝ) (res : String),
      drawNext m node l r res =
        cumulativeDraw
          ((l.filter fun p => (lookupNode m p.1).isSome).map
            fun p => (p.1, strengthOf m p.1 * entangledFactor node p.1)) r res
  | [], _, _ => rfl
  | p :: rest, r, res => by
    rw [drawNext]
    cases hl : lookupNode m p.1 with
    | none =>
      rw [Option.elim_none]
      rw [List.filter_cons]
      simp only [hl, Option.isSome_none, Bool.false_eq_true, if_false]
      exact drawNext_eq_cumulativeDraw m node rest r res
    | some n =>
      rw [Option.elim_some]
      rw [List.filter_cons]
      simp only [hl, Option.isSome_some, if_true]
      rw [List.map_cons, cumulativeDraw]
      have hs : strengthOf m p.1 = n.strength := by
        rw [strengthOf, hl]
        rfl
      rw [hs]
      by_cases hc : r - n.strength * entangledFactor node p.1 ≤ 0
      · rw [if_pos hc, if_pos hc]
      · rw [if_neg hc, if_neg hc]
        exact drawNext_eq_cumulativeDraw m node rest _ res

/-- C3 amended: the next word is drawn by a cumulative-distribution draw
over the successors sorted descending by count * strength * boost, but the
draw weights are strength(candidate) * boost only — the transition count
and the amplitude-cosine resonance term do not enter the weights — against
the uniform value scaled by the total strength-boost weight; candidates
without a node are skipped. -/
theorem generation_draw_strength_weights (m : Nodes) (node : WordNode) (u : ℝ) :
    (selectNextWord m node u =
      cumulativeDraw
        (((sortedNextWords m node).filter fun p => (lookupNode m p.1).isSome).map
          fun p => (p.1, strengthOf m p.1 * entangledFactor node p.1))
        (u * totalStrength m node (sortedNextWords m node))
        (((sortedNextWords m node).head?.map Prod.fst).getD "")) ∧
    totalStrength m node (sortedNextWords m node) =
      ((sortedNextWords m node).map
        fun p => strengthOf m p.1 * entangledFactor node p.1).sum :=
  ⟨drawNext_eq_cumulativeDraw m node (sortedNextWords m node) _ _, by
    rw [totalStrength, foldl_add_weights _ (sortedNextWords m node) 0, zero_add]⟩

/-- The bounded generation walk of `generateResponse`: at most `maxLength`
words, reading the current node, bumping its strength by the interference
with the coherence state, drawing the next word, reassigning the selected
node's quantum state from its hologram, with a random early exit once the
response holds twenty words.  The fuel starts at the maximum length, which
bounds the iteration count since every step appends one word. -/
def genLoop (now coh : ℝ) (rho : ℕ → ℝ) :
    ℕ → Nodes → List String → String → ℕ → Nodes × List String
  | 0, m, resp, _, _ => (m, resp)
  | fuel + 1, m, resp, cur, k =>
    if resp.length < 100 then
      (lookupNode m cur).elim (m, resp) fun node =>
        if node.next = [] then (m, resp)
        else
          let node1 := { node with
            lastAccessed := now,
            strength := min (node.strength +
                0.05 * (1 + quantumInterference node.quantumState ⟨⟨coh, 0⟩, 0⟩))
              MAX_MEMORY_STRENGTH }
          let m1 := setNode m cur node1
          let nextWord := selectNextWord m1 node1 (rho k)
          let m2 := (lookupNode m1 nextWord).elim m1 fun sel =>
            setNode m1 nextWord
              { sel with quantumState := reconstructHologram sel.holographicPattern }
          if 20 ≤ (resp ++ [nextWord]).length then
            if rho (k + 1) < 0.1 then (m2, resp ++ [nextWord])
            else genLoop now coh rho fuel m2 (resp ++ [nextWord]) nextWord (k + 2)
          else genLoop now coh rho fuel m2 (resp ++ [nextWord]) nextWord (k + 1)
    else (m, resp)

/-- The fallback branch of `generateResponse` (no external backend):
tokenize, return empty on empty tokenization, otherwise walk from the last
token and join the response with spaces. -/
def generateResponse (mem : Memory) (input : String) (now : ℝ) (rho : ℕ → ℝ)
    (k : ℕ) : Memory × String :=
  if tokenize input = [] then (mem, "")
  else
    ({ mem with
        nodes := (genLoop now mem.quantumCoherence rho 100 mem.nodes (tokenize input)
          ((tokenize input).getLastD "") k).1 },
      String.intercalate " "
        (genLoop now mem.quantumCoherence rho 100 mem.nodes (tokenize input)
          ((tokenize input).getLastD "") k).2)

theorem genLoop_unknown (now coh : ℝ) (rho : ℕ → ℝ) (fuel : ℕ) (m : Nodes)
    (resp : List String) (cur : String) (k : ℕ) (h : lookupNode m cur = none) :
    genLoop now coh rho fuel m resp cur k = (m, resp) := by
  cases fuel with
  | zero => rfl
  | succ fuel =>
    rw [genLoop]
    by_cases hlen : resp.length < 100
    · rw [if_pos hlen, h, Option.elim_none]
    · rw [if_neg hlen]

theorem generate_unknown_last (mem : Memory) (input : String) (now : ℝ) (rho : ℕ → ℝ)
    (k : ℕ) (hw : tokenize input ≠ [])
    (hl : lookupNode mem.nodes ((tokenize input).getLastD "") = none) :
    (generateResponse mem input now rho k).2 = String.intercalate " " (tokenize input) := by
  rw [generateResponse, if_neg hw,
    genLoop_unknown now mem.quantumCoherence rho 100 mem.nodes (tokenize input)
      ((tokenize input).getLastD "") k hl]

/-- C9 counterexample: for a prompt whose last token has no node, generate
does not return the prompt unchanged — it returns the lowercased
space-joined token sequence, which differs from the prompt whenever the
prompt contains upper case or separators. -/
theorem generate_prompt_unchanged_cex :
    (generateResponse emptyMem "Zzznotaword!" 0 rho0 0).2 ≠ "Zzznotaword!" := by
  rw [generate_unknown_last emptyMem "Zzznotaword!" 0 rho0 0 (by decide) rfl]
  decide

/-- C9 amended: generate on an empty tokenization returns the empty string;
generate on a prompt whose last token has no node returns the lowercased
space-joined tokens of the prompt with no continuation appended (which is
the prompt itself exactly when the prompt is a single lowercase word, as in
the `zzznotaword` instance). -/
theorem generate_degenerate_cases :
    (∀ (mem : Memory) (now : ℝ) (rho : ℕ → ℝ) (k : ℕ),
        (generateResponse mem "" now rho k).2 = "") ∧
    (∀ (mem : Memory) (input : String) (now : ℝ) (rho : ℕ → ℝ) (k : ℕ),
        tokenize input ≠ [] →
        lookupNode mem.nodes ((tokenize input).getLastD "") = none →
        (generateResponse mem input now rho k).2 =
          String.intercalate " " (tokenize input)) ∧
    (∀ (mem : Memory) (now : ℝ) (rho : ℕ → ℝ) (k : ℕ),
        lookupNode mem.nodes "zzznotaword" = none →
        (generateResponse mem "zzznotaword" now rho k).2 = "zzznotaword") := by
  refine ⟨?_, generate_unknown_last, ?_⟩
  · intro mem now rho k
    rw [generateResponse, if_pos (show tokenize "" = [] from rfl)]
  · intro mem now rho k h
    rw [generate_unknown_last mem "zzznotaword" now rho k (by decide) (by
      rw [show (tokenize "zzznotaword").getLastD "" = "zzznotaword" from by decide]
      exact h)]
    decide

/-- Witness for the amended C9 at concrete inputs. -/
theorem generate_degenerate_cases_witness :
    tokenize "Zzz" ≠ [] ∧ lookupNode emptyMem.nodes ((tokenize "Zzz").getLastD "") = none ∧
      (generateResponse emptyMem "Zzz" 0 rho0 0).2 = String.intercalate " " (tokenize "Zzz") :=
  ⟨by decide, rfl, generate_degenerate_cases.2.1 emptyMem "Zzz" 0 rho0 0 (by decide) rfl⟩

namespace DP

/-- The `WordData` record of DocumentProcessor; colors are rational draws
from the random stream. -/
structure WordData where
  word : String
  frequency : ℕ
  hue : ℚ
  saturation : ℚ
  nextWords : List (String × ℕ)
  totalTransitions : ℕ

/-- The static word map of DocumentProcessor, insertion ordered. -/
abbrev Words := List (String × WordData)

/-- Lookup in the word map. -/
def lookupWord : Words → String → Option WordData
  | [], _ => none
  | (k, dta) :: t, w => if k = w then some dta else lookupWord t w

/-- The mutation applied to a word entry by `addWordTransition`: bump
frequency and total transitions, bump or create the successor count. -/
def touchWord (dta : WordData) (nxt : String) : WordData :=
  { dta with
    frequency := dta.frequency + 1,
    totalTransitions := dta.totalTransitions + 1,
    nextWords := bumpTransition dta.nextWords nxt }

/-- The fresh entry created by `addWordTransition` for an unseen word, with
the two random color draws taken from the stream at index `k`. -/
def freshWord (cur : String) (rho : ℕ → ℚ) (k : ℕ) : WordData :=
  { word := cur, frequency := 0, hue := rho k, saturation := 0.5 + rho (k + 1) * 0.5,
    nextWords := [], totalTransitions := 0 }

/-- `addWordTransition` from DocumentProcessor: create the entry when
absent (consuming two random draws for the colors), then mutate it. -/
def addWordTransition (ws : Words) (cur nxt : String) (rho : ℕ → ℚ) (k : ℕ) :
    Words × ℕ :=
  if (lookupWord ws cur).isSome then
    (ws.map fun p => if p.1 = cur then (p.1, touchWord p.2 nxt) else p, k)
  else
    ((ws ++ [(cur, freshWord cur rho k)]).map
      fun p => if p.1 = cur then (p.1, touchWord p.2 nxt) else p, k + 2)

/-- The transition-recording loop of DocumentProcessor's `processText`:
`addWordTransition` over every consecutive token pair. -/
def ingestText (text : String) (rho : ℕ → ℚ) (k : ℕ) (ws : Words) : Words × ℕ :=
  (consecutivePairs (tokenize text)).foldl
    (fun acc p => addWordTransition acc.1 p.1 p.2 rho acc.2) (ws, k)

/-- `getNextWordProbabilities` from DocumentProcessor: each successor
paired with its count over the total transitions, sorted descending by
probability; empty when the word is absent. -/
def getNextWordProbabilities (ws : Words) (cur : String) : List (String × ℚ) :=
  (lookupWord ws cur).elim [] fun dta =>
    List.insertionSort (fun a b => b.2 ≤ a.2)
      (dta.nextWords.map fun p => (p.1, (p.2 : ℚ) / (dta.totalTransitions : ℚ)))

/-- The entry the scenario ingestion builds for the word `cat`: two
occurrences, successors `sat` then `ran`, two outgoing transitions. -/
def catData : WordData :=
  { word := "cat", frequency := 2, hue := 0, saturation := 0.5 + 0 * 0.5,
    nextWords := [("sat", 1), ("ran", 1)], totalTransitions := 2 }

/-- C7: `getTransitionWeights(word)` pairs every stored successor with
count over total outgoing transitions, sorted descending by probability;
it is empty when the word is absent; and for the scenario text
`the cat sat. the cat ran.` the result for `cat` is exactly
`sat` and `ran`, each with probability one half. -/
theorem transition_weights_spec :
    (∀ (ws : Words) (cur : String), lookupWord ws cur = none →
        getNextWordProbabilities ws cur = []) ∧
    (∀ (ws : Words) (cur : String) (dta : WordData), lookupWord ws cur = some dta →
        List.Sorted (fun a b => (b.2 : ℚ) ≤ a.2) (getNextWordProbabilities ws cur) ∧
        (getNextWordProbabilities ws cur).Perm
          (dta.nextWords.map fun p => (p.1, (p.2 : ℚ) / (dta.totalTransitions : ℚ)))) ∧
    getNextWordProbabilities (ingestText "the cat sat. the cat ran." (fun _ => 0) 0 []).1
      "cat" = [("sat", 1 / 2), ("ran", 1 / 2)] := by
  refine ⟨?_, ?_, ?_⟩
  · intro ws cur h
    rw [getNextWordProbabilities, h, Option.elim_none]
  · intro ws cur dta h
    rw [getNextWordProbabilities, h, Option.elim_some]
    constructor
    · have htot : IsTotal (String × ℚ) fun a b => (b.2 : ℚ) ≤ a.2 :=
        ⟨fun a b => le_total b.2 a.2⟩
      have htrans : IsTrans (String × ℚ) fun a b => (b.2 : ℚ) ≤ a.2 :=
        ⟨fun _ _ _ hab hbc => le_trans hbc hab⟩
      exact @List.sorted_insertionSort _ _ _ htot htrans _
    · exact List.perm_insertionSort _ _
  · have h1 : lookupWord (ingestText "the cat sat. the cat ran." (fun _ => 0) 0 []).1 "cat"
        = some catData := rfl
    rw [getNextWordProbabilities, h1, Option.elim_some]
    rw [show catData.nextWords = [("sat", 1), ("ran", 1)] from rfl,
      show catData.totalTransitions = 2 from rfl]
    simp only [List.map_cons, List.map_nil]
    simp only [List.insertionSort, List.orderedInsert]
    rw [if_pos (by norm_num)]
    norm_num

/-- A one-word map for the C7 witness. -/
def demoData : WordData :=
  { word := "x", frequency := 1, hue := 0, saturation := 1 / 2,
    nextWords := [("y", 1)], totalTransitions := 1 }

/-- Witness for C7 at concrete maps. -/
theorem transition_weights_spec_witness :
    (lookupWord [] "x" = none ∧ getNextWordProbabilities [] "x" = []) ∧
    (lookupWord [("x", demoData)] "x" = some demoData ∧
      List.Sorted (fun a b => (b.2 : ℚ) ≤ a.2)
        (getNextWordProbabilities [("x", demoData)] "x") ∧
      (getNextWordProbabilities [("x", demoData)] "x").Perm
        (demoData.nextWords.map fun p =>
          (p.1, (p.2 : ℚ) / (demoData.totalTransitions : ℚ)))) :=
  ⟨⟨rfl, transition_weights_spec.1 [] "x" rfl⟩,
   ⟨rfl, transition_weights_spec.2.1 [("x", demoData)] "x" demoData rfl⟩⟩

end DP

end QHNN
